import Mathlib

/-
Verification of the gossdb-tls SSDB client library (Go) against its
natural-language specification.

Embedding conventions:
 * Go byte strings are `List Nat`, one Nat per byte (all source strings are
   treated as raw byte sequences, which is what the Go code does: `len`
   is byte length, indexing is byte indexing).
 * The gzip library is external to the repository; it is modelled as a
   pair of function parameters `gz : Bytes → Bytes` (compression) and
   `ungz : Bytes → Option Bytes` (decompression, `none` = reader error),
   with round-trip behaviour assumed as an explicit hypothesis where a
   theorem needs it.
 * Loops in the source that walk a buffer are embedded with an explicit
   fuel argument (always called with fuel = buffer length + 1, which is
   proven sufficient); this keeps every definition computable by `decide`.
 * Stateful side effects that the claims mention (receive-buffer
   consumption, connection open/close bookkeeping of the batch executor,
   per-command error logging) are modelled as explicit result data.
-/

namespace Gossdb

/-- Byte strings: one `Nat` per byte. -/
abbrev Bytes := List Nat

/-- ASCII bytes of "zip". -/
def zipBytes : Bytes := [122, 105, 112]

/-- ASCII bytes of "ok". -/
def okBytes : Bytes := [111, 107]

/-- ASCII bytes of "not_found". -/
def notFoundBytes : Bytes := [110, 111, 116, 95, 102, 111, 117, 110, 100]

/-! ### Decimal rendering (fmt.Sprintf "%d") -/

/-- Decimal digits of a natural number, most significant first; fuel-based
so that it is kernel-computable.  Empty for 0 (handled by `natDec`). -/
def natDecAux : Nat → Nat → Bytes
  | 0, _ => []
  | _ + 1, 0 => []
  | fuel + 1, n + 1 => natDecAux fuel ((n + 1) / 10) ++ [48 + (n + 1) % 10]

/-- Bytes of the decimal rendering of a natural number, as produced by Go
fmt.Sprintf("%d", n) for n ≥ 0. -/
def natDec (n : Nat) : Bytes :=
  if n = 0 then [48] else natDecAux (n + 1) n

/-- Bytes of the decimal rendering of a Go int / int64 (possibly negative). -/
def intDec (n : Int) : Bytes :=
  if n < 0 then 45 :: natDec n.natAbs else natDec n.toNat

/-! ### strconv.Atoi -/

/-- Decision of "byte is an ASCII digit". -/
def isDigit (c : Nat) : Bool := 48 ≤ c && c ≤ 57

/-- Value of a nonempty all-digit byte string; `none` otherwise. -/
def digitsVal (s : Bytes) : Option Nat :=
  if s ≠ [] ∧ s.all isDigit then
    some (s.foldl (fun acc c => acc * 10 + (c - 48)) 0)
  else none

/-- Largest value of a Go int64 (and of Go int on 64-bit platforms). -/
def maxInt64 : Nat := 9223372036854775807

/-- Go strconv.Atoi on a byte string: optional single leading sign, then
one or more digits; anything else is an error (`none`).  A value outside
the 64-bit int range (above MaxInt64, or below MinInt64 when the sign is
negative) is strconv.ErrRange: Atoi then returns a non-nil error,
modelled as `none` (both call sites in the source only test whether the
error is non-nil, so the clamped value Go also returns is irrelevant). -/
def goAtoi (s : Bytes) : Option Int :=
  match s with
  | [] => none
  | c :: rest =>
    if c = 43 then
      (digitsVal rest).bind fun n =>
        if n ≤ maxInt64 then some (n : Int) else none
    else if c = 45 then
      (digitsVal rest).bind fun n =>
        if n ≤ maxInt64 + 1 then some (-(n : Int)) else none
    else
      (digitsVal (c :: rest)).bind fun n =>
        if n ≤ maxInt64 then some (n : Int) else none

/-! ### The Quote/Replace transformation of Client.parse

Client.parse runs each length line `p` through
strings.Replace(strconv.Quote(string(p)), quote-char, empty, -1)
before strconv.Atoi.  strconv.Quote wraps the string in double quotes and
escapes non-printable characters; the Replace then deletes every
double-quote byte.  The model below is exact for ASCII bytes; bytes ≥ 0x80
are rendered as a backslash-x escape, which agrees with Go on invalid
UTF-8 and is observationally equal through Atoi otherwise (a multi-byte
rune can never render as a plain digit, so Atoi fails either way). -/

/-- Hex digit byte for a nibble (lower case, as Go uses). -/
def hexDigit (n : Nat) : Nat := if n < 10 then 48 + n else 87 + n

/-- Escape of one byte inside strconv.Quote output. -/
def quoteChar (c : Nat) : Bytes :=
  if c = 34 then [92, 34]            -- double quote → backslash quote
  else if c = 92 then [92, 92]       -- backslash → double backslash
  else if c = 13 then [92, 114]      -- carriage return → backslash r
  else if c = 10 then [92, 110]      -- newline → backslash n
  else if c = 9 then [92, 116]       -- tab → backslash t
  else if 32 ≤ c ∧ c ≤ 126 then [c]  -- printable ASCII unchanged
  else [92, 120, hexDigit (c / 16 % 16), hexDigit (c % 16)]

/-- The full length-line transformation of Client.parse: strconv.Quote
followed by deleting every double-quote byte (the outer quotes and any
escaped quote both lose their 0x22 byte). -/
def quoteStrip (p : Bytes) : Bytes :=
  ((p.map quoteChar).flatten).filter (fun c => c ≠ 34)

/-! ### base64 (encoding/base64 StdEncoding) -/

/-- The standard base64 alphabet, as ASCII bytes. -/
def b64Alphabet : Bytes :=
  [65, 66, 67, 68, 69, 70, 71, 72, 73, 74, 75, 76, 77, 78, 79, 80, 81, 82,
   83, 84, 85, 86, 87, 88, 89, 90,
   97, 98, 99, 100, 101, 102, 103, 104, 105, 106, 107, 108, 109, 110, 111,
   112, 113, 114, 115, 116, 117, 118, 119, 120, 121, 122,
   48, 49, 50, 51, 52, 53, 54, 55, 56, 57, 43, 47]

/-- Alphabet byte of a sextet value (< 64). -/
def b64Char (s : Nat) : Nat := b64Alphabet.getD s 0

/-- Sextet value of an alphabet byte, `none` for non-alphabet bytes. -/
def b64Val (c : Nat) : Option Nat := b64Alphabet.findIdx? (fun x => x = c)

/-- base64.StdEncoding.EncodeToString on a byte string (with padding). -/
def b64Encode : Bytes → Bytes
  | b0 :: b1 :: b2 :: rest =>
      b64Char (b0 / 4) :: b64Char ((b0 % 4) * 16 + b1 / 16) ::
      b64Char ((b1 % 16) * 4 + b2 / 64) :: b64Char (b2 % 64) :: b64Encode rest
  | [b0, b1] =>
      [b64Char (b0 / 4), b64Char ((b0 % 4) * 16 + b1 / 16),
       b64Char ((b1 % 16) * 4), 61]
  | [b0] => [b64Char (b0 / 4), b64Char ((b0 % 4) * 16), 61, 61]
  | [] => []

/-- base64.StdEncoding.DecodeString: groups of four alphabet bytes, with
one or two 0x3d padding bytes allowed only in the final group; any other
shape (including a length that is not a multiple of four) is an error. -/
def b64Decode : Bytes → Option Bytes
  | [] => some []
  | c0 :: c1 :: c2 :: c3 :: rest => do
      let s0 ← b64Val c0
      let s1 ← b64Val c1
      if c2 = 61 then
        if c3 = 61 ∧ rest = [] then some [s0 * 4 + s1 / 16] else none
      else do
        let s2 ← b64Val c2
        if c3 = 61 then
          if rest = [] then some [s0 * 4 + s1 / 16, (s1 % 16) * 16 + s2 / 4]
          else none
        else do
          let s3 ← b64Val c3
          let tail ← b64Decode rest
          some ((s0 * 4 + s1 / 16) :: ((s1 % 16) * 16 + s2 / 4) ::
                ((s2 % 4) * 64 + s3) :: tail)
  | _ => none

/-! ### Argument values and the Client.Send encoder

Client.Send switches on the dynamic type of each argument.  The closed
set of accepted types is embedded as the inductive `Arg`; the default
switch case (any other type) returns an encode error and is therefore
not representable.  A float argument is carried as the bytes of its
fmt.Sprintf("%f") rendering: the formatting itself is done by the Go
runtime, outside this repository, and only the rendered bytes enter the
codec. -/

inductive Arg where
  | str (s : Bytes)                 -- case string
  | bytes (b : Bytes)               -- case []byte
  | strList (l : List Bytes)        -- case []string
  | int (n : Int)                   -- cases int, int64 (identical encoding)
  | float (f : Bytes)               -- case float64, rendered via %f
  | bool (b : Bool)                 -- case bool
  | null                            -- case nil
  | iface (l : List Bytes)          -- case []interface{} (string elements)
deriving DecidableEq

/-- One length-prefixed wire part: decimal length, newline, bytes, newline. -/
def partBytes (p : Bytes) : Bytes := natDec p.length ++ 10 :: (p ++ [10])

/-- Concatenation of length-prefixed parts. -/
def partsConcat (ps : List Bytes) : Bytes := (ps.map partBytes).flatten

/-- Bytes written for one argument by the uncompressed branch of
Client.Send (each switch case writes `len newline bytes newline`, a
[]string or []interface{} writes that once per element). -/
def encodeArg : Arg → Bytes
  | .str s => partBytes s
  | .bytes b => partBytes b
  | .strList l => partsConcat l
  | .int n => partBytes (intDec n)
  | .float f => partBytes f
  | .bool b => partBytes (if b then [49] else [48])
  | .null => partBytes []
  | .iface l => partsConcat l

/-- The parts an argument expands to on the wire. -/
def argParts : Arg → List Bytes
  | .str s => [s]
  | .bytes b => [b]
  | .strList l => l
  | .int n => [intDec n]
  | .float f => [f]
  | .bool b => [if b then [49] else [48]]
  | .null => [[]]
  | .iface l => l

/-- All parts of an argument vector, in order. -/
def allParts (args : List Arg) : List Bytes := (args.map argParts).flatten

/-- Client.Send with c.zip = false: every argument is written
length-prefixed into the buffer, then one extra newline terminates the
frame. -/
def encodeNoZip (args : List Arg) : Bytes :=
  (args.map encodeArg).flatten ++ [10]

/-- Bytes one argument contributes to the gzip writer in the compressed
branch of Client.Send: every case writes its length-prefixed parts
through the writer, except []interface{}, whose case writes to the outer
buffer instead (and contributes nothing here). -/
def zipArgInner : Arg → Bytes
  | .iface _ => []
  | a => encodeArg a

/-- Bytes one argument contributes directly to the outer buffer in the
compressed branch of Client.Send: only the []interface{} case does this
(its elements are emitted as raw outer parts). -/
def zipArgOuter : Arg → Bytes
  | .iface l => partsConcat l
  | _ => []

/-- Bytes fed to the gzip writer by the compressed branch of Client.Send. -/
def zipInner (args : List Arg) : Bytes := (args.map zipArgInner).flatten

/-- Bytes the compressed branch of Client.Send writes directly to the
outer buffer while looping over the arguments. -/
def zipOuterExtra (args : List Arg) : Bytes := (args.map zipArgOuter).flatten

/-- Client.Send with c.zip = true, parameterised by the gzip compressor:
writes the raw envelope bytes "3" newline "zip" newline, loops over the
arguments (gzip writer for all cases except []interface{}, which writes
raw outer parts), then emits the base64 of the gzip output as one
length-prefixed part and one extra terminating newline. -/
def encodeZip (gz : Bytes → Bytes) (args : List Arg) : Bytes :=
  [51, 10] ++ (zipBytes ++ [10]) ++ zipOuterExtra args ++
    partBytes (b64Encode (gz (zipInner args))) ++ [10]

/-! ### Client.parse

Client.parse walks the receive buffer.  Three outcomes are possible in
the source and are kept distinct here:
 * return nil            — malformed length line (parser error sentinel);
 * return empty slice    — incomplete input, read more bytes;
 * return parts + recv_buf.Next(offset) — a complete frame; `consumed`
   records the Next argument (the only place the buffer is advanced).

The walk is embedded on the remaining suffix `rest` plus the running
`consumed` count; the absolute-offset arithmetic of the source is
recovered by `consumed` + position in `rest` (the source condition
offset+size >= recv_buf.Len() is exactly size >= rest.length after the
length line).  The source guard `len(buf) < offset` can never fire (the
offset never passes the end, see the size check) and has no analogue. -/

/-- bytes.IndexByte for the newline byte. -/
def idxOfNL : Bytes → Option Nat
  | [] => none
  | 10 :: _ => some 0
  | _ :: rest => (idxOfNL rest).map (· + 1)

inductive ParseResult where
  | needMore                                    -- Go: return []string{}
  | error                                       -- Go: return nil
  | frame (parts : List Bytes) (consumed : Nat) -- Go: recv_buf.Next(consumed); return parts
deriving DecidableEq

/-- One pass of the Client.parse loop, with explicit fuel (the loop
consumes at least one byte per iteration, so fuel = rest.length + 1 is
always enough; see parseLoop_fuel). -/
def parseLoop : Nat → Bytes → Nat → List Bytes → ParseResult
  | 0, _, _, _ => .needMore
  | fuel + 1, rest, consumed, resp =>
    match idxOfNL rest with
    | none => .needMore
    | some idx =>
      if rest.take idx = [] ∨ rest.take idx = [13] then
        if resp = [] then
          parseLoop fuel (rest.drop (idx + 1)) (consumed + idx + 1) resp
        else .frame resp (consumed + idx + 1)
      else
        match goAtoi (quoteStrip (rest.take idx)) with
        | none => .error
        | some size =>
          if size < 0 then .error
          else if (rest.drop (idx + 1)).length ≤ size.toNat then .needMore
          else parseLoop fuel ((rest.drop (idx + 1)).drop (size.toNat + 1))
                 (consumed + idx + 1 + size.toNat + 1)
                 (resp ++ [(rest.drop (idx + 1)).take size.toNat])

/-- Client.parse on the current receive buffer. -/
def parse (buf : Bytes) : ParseResult := parseLoop (buf.length + 1) buf 0 []

/-- Contents of the receive buffer after a call to Client.parse: only the
frame branch calls recv_buf.Next. -/
def parseAdvance (buf : Bytes) : Bytes :=
  match parse buf with
  | .frame _ k => buf.drop k
  | _ => buf

/-! ### Client.tranfUnZip

tranfUnZip gunzips the payload and re-frames it.  Its loop reads a
length line with plain strconv.Atoi (no Quote dance); a line that fails
Atoi (notably the empty line left after each part, since the loop does
not skip the part terminator) is dropped and the walk continues.  A
declared size reaching past the data would make the Go slice expression
panic; that is kept as a distinct outcome. -/

inductive TranfRes where
  | out (parts : List Bytes)   -- normal return (nil result is `out []`)
  | panics                     -- slice out of range
deriving DecidableEq

/-- The re-framing loop of tranfUnZip, fuel-based like parseLoop. -/
def tranfLoop : Nat → Bytes → List Bytes → TranfRes
  | 0, _, resp => .out resp
  | fuel + 1, zipData, resp =>
    match idxOfNL zipData with
    | none => .out resp
    | some idx =>
      match goAtoi (zipData.take idx) with
      | none => tranfLoop fuel (zipData.drop (idx + 1)) resp
      | some size =>
        if size < 0 then tranfLoop fuel (zipData.drop (idx + 1)) resp
        else if zipData.length < idx + 1 + size.toNat then .panics
        else tranfLoop fuel (zipData.drop (idx + 1 + size.toNat))
               (resp ++ [(zipData.drop (idx + 1)).take size.toNat])

/-- Client.tranfUnZip, parameterised by the gzip reader; a reader/ReadAll
error makes the source return nil, modelled as `out []`. -/
def tranfUnZip (ungz : Bytes → Option Bytes) (data : Bytes) : TranfRes :=
  match ungz data with
  | none => .out []
  | some zipData => tranfLoop (zipData.length + 1) zipData []

/-! ### Client.recv

One recv attempt on the buffered bytes.  The source loops: a conclusive
parse (nil or nonempty) is handled and returned with the error shown
below; an empty parse result makes it read more bytes from the socket
(`readMore` here).  Note the nil parse result (malformed frame) is
returned to the caller as data nil, error nil. -/

inductive RecvOut where
  | ret (data : Option (List Bytes)) (err : Bool)  -- returned (data, error)
  | readMore                                       -- would read the socket
  | panics                                         -- resp[1] out of range
deriving DecidableEq

/-- One iteration of Client.recv over the current buffer, parameterised
by the gzip reader used by tranfUnZip.  The Bool in `ret` is whether the
returned error is non-nil (the caller runs CheckError, which drops the
connection and starts a reconnect, only when it is). -/
def recvStep (ungz : Bytes → Option Bytes) (buf : Bytes) : RecvOut :=
  match parse buf with
  | .needMore => .readMore
  | .error => .ret none false            -- resp == nil: return resp, nil
  | .frame ps _ =>
    if ps.head? = some zipBytes then     -- len(resp) > 0 && resp[0] == "zip"
      match ps.get? 1 with
      | none => .panics                  -- resp[1] index out of range
      | some b =>
        match b64Decode b with
        | none => .ret none true         -- base64 error: return nil, err
        | some z =>
          match tranfUnZip ungz z with
          | .panics => .panics
          | .out l => .ret (some l) false
    else .ret (some ps) false

/-! ### Client.ProcessCmd typed response decoding

The decoding of an already-received response `resp` for a command name,
mirroring the branch chain of ProcessCmd.  The map-building loop
`for i := 0; i < len(data); i += 2 { list[data[i]] = data[i+1] }`
reads data[i+1] without a bounds check; for odd-length data the final
iteration indexes one past the end, kept as a distinct `panic` outcome. -/

inductive CmdRes where
  | okBool (b : Bool)
  | okInt (v : Int)
  | okStr (s : Bytes)
  | okList (l : List Bytes)
  | okMap (m : List (Bytes × Bytes))
  | errParseInt      -- hsize whose second part fails strconv.ParseInt
  | errNotFound      -- response ["not_found"]
  | errBadResponse   -- the final bad-response error return
  | panics           -- data[i+1] index out of range in the map loop
deriving DecidableEq

/-- Whether a decode result is a mapping. -/
def cmdResIsMap : CmdRes → Bool
  | .okMap _ => true
  | _ => false

/-- Go map assignment m[k] = v on an association-list model: overwrite an
existing key, otherwise append. -/
def mapSet : List (Bytes × Bytes) → Bytes → Bytes → List (Bytes × Bytes)
  | [], k, v => [(k, v)]
  | (k', v') :: rest, k, v =>
    if k' = k then (k, v) :: rest else (k', v') :: mapSet rest k v

/-- The pairing loop of ProcessCmd over the payload tail, starting from
an accumulated map; `none` is the out-of-range read on odd input. -/
def buildMap : List Bytes → List (Bytes × Bytes) →
    Option (List (Bytes × Bytes))
  | [], acc => some acc
  | [_], _ => none
  | k :: v :: rest, acc => buildMap rest (mapSet acc k v)

/-- The six commands decoded to a map by ProcessCmd. -/
def mapCmds : List String :=
  ["hgetall", "hscan", "hrscan", "multi_hget", "scan", "rscan"]

/-- ProcessCmd response decoding: the branch chain on (len(resp),
resp[0]) and the switch on the command name. -/
def processResp (cmd : String) (resp : List Bytes) : CmdRes :=
  if resp.length = 2 ∧ resp.get? 0 = some okBytes then
    if cmd = "set" ∨ cmd = "del" then .okBool true
    else if cmd = "expire" ∨ cmd = "setnx" ∨ cmd = "auth" ∨ cmd = "exists"
        ∨ cmd = "hexists" then
      .okBool (resp.get? 1 = some [49])
    else if cmd = "hsize" then
      match goAtoi (resp.getD 1 []) with
      | some v => .okInt v
      | none => .errParseInt
    else .okStr (resp.getD 1 [])
  else if resp.length = 1 ∧ resp.get? 0 = some notFoundBytes then
    .errNotFound
  else if 1 ≤ resp.length ∧ resp.get? 0 = some okBytes then
    if cmd ∈ mapCmds then
      match buildMap (resp.drop 1) [] with
      | some m => .okMap m
      | none => .panics
    else .okList (resp.drop 1)
  else .errBadResponse

/-! ### Client.BatchSend

The batch executor.  Dispatch through the per-chunk connections is
sequential in the source (batchSubSend is called without go, and itself
awaits every command), so the executor is a pure function of the
command list and of a dispatch oracle `doFn` giving the error outcome
of each command.  Connections are modelled by the list of pool indices
the Connect loop creates; the final loop closes exactly the pool. -/

/-- Go slicing l[s:e] (s ≤ e ≤ len assumed by the source paths used). -/
def goSlice {α : Type} (l : List α) (s e : Nat) : List α :=
  (l.take e).drop s

/-- The chunking of Client.BatchSend: splitSize = 2000; for an input of
at least one chunk, loop i = 0..pics (pics = len/2000) appending the
clamped, non-empty slices; otherwise a single chunk. -/
def splitChunks {α : Type} (batch : List α) : List (List α) :=
  if batch.length ≥ 2000 then
    (List.range (batch.length / 2000 + 1)).filterMap fun i =>
      let s := min (i * 2000) batch.length
      let e := min ((i + 1) * 2000) batch.length
      if s ≠ e then some (goSlice batch s e) else none
  else [batch]

/-- batchSubSend on one chunk: every command is dispatched in order; an
error is logged and the loop continues; the function returns nil
unconditionally.  The first component records the logged per-command
outcomes, the second is the return value. -/
def batchSubSend {α : Type} (doFn : α → Option String) (chunk : List α) :
    List (Option String) × Option String :=
  (chunk.map doFn, none)

/-- Observable outcome of Client.BatchSend. -/
structure BatchTrace (α : Type) where
  chunks : List (List α)               -- the splitArgs partition
  openedConns : List Nat               -- pool indices created by Connect
  closedConns : List Nat               -- pool indices closed at the end
  callerClosed : Bool                  -- whether c itself was closed
  logs : List (List (Option String))   -- per-chunk logged outcomes
  ret : Option String                  -- return value
deriving DecidableEq

/-- Client.BatchSend: partition, open one connection per chunk, run
batchSubSend on each chunk with its own connection, close the pool,
return nil. -/
def batchSend {α : Type} (doFn : α → Option String) (batch : List α) :
    BatchTrace α :=
  let splitArgs := splitChunks batch
  let connNum := splitArgs.length
  let pool := List.range connNum
  { chunks := splitArgs
    openedConns := pool
    closedConns := pool
    callerClosed := false
    logs := splitArgs.map fun chunk => (batchSubSend doFn chunk).1
    ret := none }

/-- Reference chunking used to state properties of splitChunks: groups
of 2000 with a final short group. -/
def chunksRef {α : Type} (l : List α) : List (List α) :=
  if _h : l.length ≤ 2000 then [l]
  else l.take 2000 :: chunksRef (l.drop 2000)
termination_by l.length
decreasing_by
  simp only [List.length_drop]
  omega

/-! ### Derived notions used by the statements -/

/-- parseLoop at its canonical (always sufficient) fuel. -/
def parseFrom (rest : Bytes) (consumed : Nat) (resp : List Bytes) :
    ParseResult :=
  parseLoop (rest.length + 1) rest consumed resp

/-- tranfLoop at its canonical fuel. -/
def tranfFrom (zipData : Bytes) (resp : List Bytes) : TranfRes :=
  tranfLoop (zipData.length + 1) zipData resp

/-- A length line the parser rejects: the Quote/strip transform followed
by Atoi yields an error or a negative value. -/
def badLenLine (line : Bytes) : Prop :=
  match goAtoi (quoteStrip line) with
  | none => True
  | some k => k < 0

instance (line : Bytes) : Decidable (badLenLine line) := by
  unfold badLenLine
  exact match goAtoi (quoteStrip line) with
  | none => inferInstanceAs (Decidable True)
  | some k => inferInstanceAs (Decidable (k < 0))

/-- Whether an argument is a []interface{} value. -/
def argIsIface : Arg → Bool
  | .iface _ => true
  | _ => false

/-- An argument vector with no []interface{} member (decidable). -/
def NoIface (args : List Arg) : Prop :=
  ∀ a ∈ args, argIsIface a = false

instance (args : List Arg) : Decidable (NoIface args) :=
  inferInstanceAs (Decidable (∀ a ∈ args, argIsIface a = false))

/-- Spec-side pairing of a payload tail: (part[2k], part[2k+1]) pairs. -/
def pairChunks : List Bytes → List (Bytes × Bytes)
  | k :: v :: rest => (k, v) :: pairChunks rest
  | _ => []

/-- Spec-side map of a payload tail: the pairs inserted left to right
with Go map overwrite semantics. -/
def mapOfPairs (l : List (Bytes × Bytes)) : List (Bytes × Bytes) :=
  l.foldl (fun m kv => mapSet m kv.1 kv.2) []

/-! ### Concrete inputs used by the claims -/

/-- The argument vector ["hset","h","k","v"]. -/
def hsetArgs : List Arg :=
  [Arg.str [104, 115, 101, 116], Arg.str [104], Arg.str [107], Arg.str [118]]

/-- The argument vector ["set","k","v"]. -/
def setArgs : List Arg :=
  [Arg.str [115, 101, 116], Arg.str [107], Arg.str [118]]

/-- The inner frame bytes 4 nl hset nl 1 nl h nl 1 nl k nl 1 nl v nl. -/
def hsetInner : Bytes :=
  [52, 10, 104, 115, 101, 116, 10, 49, 10, 104, 10, 49, 10, 107, 10, 49,
   10, 118, 10]

/-! ## Lemma layer -/

/-! ### Decimal rendering and Atoi -/

theorem natDecAux_digits {fuel n : Nat} :
    ∀ c ∈ natDecAux fuel n, 48 ≤ c ∧ c ≤ 57 := by
  induction fuel generalizing n with
  | zero => simp [natDecAux]
  | succ fuel ih =>
    cases n with
    | zero => simp [natDecAux]
    | succ m =>
      intro c hc
      simp only [natDecAux, List.mem_append, List.mem_singleton] at hc
      rcases hc with h | h
      · exact ih c h
      · subst h; omega

theorem natDec_digits {n : Nat} : ∀ c ∈ natDec n, 48 ≤ c ∧ c ≤ 57 := by
  unfold natDec
  split
  · simp
  · exact natDecAux_digits

theorem natDec_ne_nil {n : Nat} : natDec n ≠ [] := by
  unfold natDec
  split
  · simp
  · rename_i h
    cases n with
    | zero => exact absurd rfl h
    | succ m => simp [natDecAux]

theorem natDec_no_nl {n : Nat} : 10 ∉ natDec n := by
  intro h
  have := natDec_digits 10 h
  omega

theorem foldl_natDecAux (fuel : Nat) :
    ∀ n a, n < fuel →
      List.foldl (fun acc c => acc * 10 + (c - 48)) a (natDecAux fuel n) =
        a * 10 ^ (natDecAux fuel n).length + n := by
  induction fuel with
  | zero => intro n a h; omega
  | succ fuel ih =>
    intro n a h
    cases n with
    | zero => simp [natDecAux]
    | succ m =>
      have hdvd : (m + 1) / 10 < fuel := by omega
      simp only [natDecAux, List.foldl_append, List.foldl_cons,
        List.foldl_nil, List.length_append, List.length_singleton]
      rw [ih ((m + 1) / 10) a hdvd]
      have h48 : 48 + (m + 1) % 10 - 48 = (m + 1) % 10 := by omega
      rw [h48, pow_succ]
      have := Nat.div_add_mod (m + 1) 10
      nlinarith [this]

theorem digitsVal_natDec {n : Nat} : digitsVal (natDec n) = some n := by
  unfold digitsVal
  rw [if_pos]
  · have h0 : ∀ fuel m, m < fuel →
        List.foldl (fun acc c => acc * 10 + (c - 48)) 0 (natDecAux fuel m) = m := by
      intro fuel m hm
      have := foldl_natDecAux fuel m 0 hm
      simpa using this
    congr 1
    unfold natDec
    split
    · rename_i h; subst h; simp
    · exact h0 (n + 1) n (by omega)
  · refine ⟨natDec_ne_nil, ?_⟩
    rw [List.all_eq_true]
    intro c hc
    have := natDec_digits c hc
    simp only [isDigit, Bool.and_eq_true, decide_eq_true_eq]
    omega

theorem goAtoi_of_digits {s : Bytes} {n : Nat}
    (h : ∀ c ∈ s, 48 ≤ c ∧ c ≤ 57) (hd : digitsVal s = some n)
    (hn : n ≤ maxInt64) :
    goAtoi s = some (n : Int) := by
  cases s with
  | nil => simp [digitsVal] at hd
  | cons c rest =>
    have hc : 48 ≤ c ∧ c ≤ 57 := h c (List.mem_cons_self c rest)
    simp only [goAtoi]
    rw [if_neg (by omega), if_neg (by omega), hd]
    simp only [Option.some_bind]
    rw [if_pos hn]

theorem goAtoi_of_digits_big {s : Bytes} {n : Nat}
    (h : ∀ c ∈ s, 48 ≤ c ∧ c ≤ 57) (hd : digitsVal s = some n)
    (hn : maxInt64 < n) :
    goAtoi s = none := by
  cases s with
  | nil => simp [digitsVal] at hd
  | cons c rest =>
    have hc : 48 ≤ c ∧ c ≤ 57 := h c (List.mem_cons_self c rest)
    simp only [goAtoi]
    rw [if_neg (by omega), if_neg (by omega), hd]
    simp only [Option.some_bind]
    rw [if_neg (by omega)]

theorem goAtoi_natDec {n : Nat} (hn : n ≤ maxInt64) :
    goAtoi (natDec n) = some (n : Int) :=
  goAtoi_of_digits natDec_digits digitsVal_natDec hn

theorem goAtoi_natDec_big {n : Nat} (hn : maxInt64 < n) :
    goAtoi (natDec n) = none :=
  goAtoi_of_digits_big natDec_digits digitsVal_natDec hn

theorem quoteChar_digit {c : Nat} (h : 48 ≤ c ∧ c ≤ 57) :
    quoteChar c = [c] := by
  unfold quoteChar
  rw [if_neg (by omega), if_neg (by omega), if_neg (by omega),
    if_neg (by omega), if_neg (by omega), if_pos (by omega)]

theorem quoteStrip_digits {p : Bytes} (h : ∀ c ∈ p, 48 ≤ c ∧ c ≤ 57) :
    quoteStrip p = p := by
  induction p with
  | nil => rfl
  | cons c rest ih =>
    have hc := h c (List.mem_cons_self c rest)
    have hr : ∀ x ∈ rest, 48 ≤ x ∧ x ≤ 57 := fun x hx =>
      h x (List.mem_cons_of_mem c hx)
    simp only [quoteStrip, List.map_cons, List.flatten_cons,
      List.filter_append] at *
    rw [quoteChar_digit hc]
    simp only [List.filter_cons, List.filter_nil]
    rw [if_pos (by simp; omega)]
    simpa [quoteStrip] using ih hr

theorem quoteStrip_natDec {n : Nat} : quoteStrip (natDec n) = natDec n :=
  quoteStrip_digits natDec_digits

theorem goAtoi_quoteStrip_natDec {n : Nat} (hn : n ≤ maxInt64) :
    goAtoi (quoteStrip (natDec n)) = some (n : Int) := by
  rw [quoteStrip_natDec, goAtoi_natDec hn]

/-! ### Atoi failure lemmas -/

theorem digitsVal_eq_none {s : Bytes} {x : Nat} (hx : x ∈ s)
    (hnd : isDigit x = false) : digitsVal s = none := by
  unfold digitsVal
  rw [if_neg]
  intro ⟨_, hall⟩
  rw [List.all_eq_true] at hall
  exact absurd (hall x hx) (by simp [hnd])

theorem goAtoi_cons_none {c : Nat} {rest : Bytes} (h43 : c ≠ 43)
    (h45 : c ≠ 45) (hd : digitsVal (c :: rest) = none) :
    goAtoi (c :: rest) = none := by
  simp only [goAtoi]
  rw [if_neg h43, if_neg h45, hd]
  rfl

theorem badLen_natDec_big {m : Nat} (hm : maxInt64 < m) :
    badLenLine (natDec m) := by
  unfold badLenLine
  rw [quoteStrip_natDec, goAtoi_natDec_big hm]
  trivial

/-! ### idxOfNL lemmas -/

theorem idxOfNL_eq_none {a : Bytes} (h : 10 ∉ a) : idxOfNL a = none := by
  induction a with
  | nil => rfl
  | cons c rest ih =>
    have hc : c ≠ 10 := fun he => h (he ▸ List.mem_cons_self c rest)
    have hr : 10 ∉ rest := fun hm => h (List.mem_cons_of_mem c hm)
    cases c with
    | zero => simp [idxOfNL, ih hr]
    | succ m =>
      match m with
      | 9 => exact absurd rfl hc
      | 0 | 1 | 2 | 3 | 4 | 5 | 6 | 7 | 8 => simp [idxOfNL, ih hr]
      | m + 10 => simp [idxOfNL, ih hr]

theorem idxOfNL_append {a b : Bytes} (h : 10 ∉ a) :
    idxOfNL (a ++ 10 :: b) = some a.length := by
  induction a with
  | nil => rfl
  | cons c rest ih =>
    have hc : c ≠ 10 := fun he => h (he ▸ List.mem_cons_self c rest)
    have hr : 10 ∉ rest := fun hm => h (List.mem_cons_of_mem c hm)
    have ihr := ih hr
    cases c with
    | zero => simp [idxOfNL, ihr]
    | succ m =>
      match m with
      | 9 => exact absurd rfl hc
      | 0 | 1 | 2 | 3 | 4 | 5 | 6 | 7 | 8 => simp [idxOfNL, ihr]
      | m + 10 => simp [idxOfNL, ihr]

theorem idxOfNL_lt {rest : Bytes} {i : Nat} (h : idxOfNL rest = some i) :
    i < rest.length := by
  induction rest generalizing i with
  | nil => simp [idxOfNL] at h
  | cons c tail ih =>
    by_cases hc : c = 10
    · subst hc
      simp [idxOfNL] at h
      simp only [List.length_cons]
      omega
    · have : idxOfNL (c :: tail) = (idxOfNL tail).map (· + 1) := by
        cases c with
        | zero => rfl
        | succ m =>
          match m with
          | 9 => exact absurd rfl hc
          | 0 | 1 | 2 | 3 | 4 | 5 | 6 | 7 | 8 => rfl
          | m + 10 => rfl
      rw [this] at h
      cases hx : idxOfNL tail with
      | none => rw [hx] at h; simp at h
      | some j =>
        rw [hx] at h
        have h2 : j + 1 = i := by simpa using h
        have hj := ih hx
        simp only [List.length_cons]
        omega

/-! ### parseLoop fuel irrelevance and stepping -/

theorem parseLoop_fuel {f1 : Nat} :
    ∀ {f2 : Nat} {rest : Bytes} {c : Nat} {resp : List Bytes},
      rest.length < f1 → rest.length < f2 →
      parseLoop f1 rest c resp = parseLoop f2 rest c resp := by
  induction f1 with
  | zero => intro f2 rest c resp h1 _; omega
  | succ f1 ih =>
    intro f2 rest c resp h1 h2
    cases f2 with
    | zero => omega
    | succ f2 =>
      simp only [parseLoop]
      cases hidx : idxOfNL rest with
      | none => rfl
      | some idx =>
        dsimp only
        have hlt : idx < rest.length := idxOfNL_lt hidx
        have hdl : (rest.drop (idx + 1)).length = rest.length - (idx + 1) :=
          List.length_drop _ _
        by_cases hp : rest.take idx = [] ∨ rest.take idx = [13]
        · rw [if_pos hp, if_pos hp]
          by_cases hr : resp = []
          · rw [if_pos hr, if_pos hr]
            exact ih (by omega) (by omega)
          · rw [if_neg hr, if_neg hr]
        · rw [if_neg hp, if_neg hp]
          cases hatoi : goAtoi (quoteStrip (rest.take idx)) with
          | none => rfl
          | some size =>
            dsimp only
            by_cases hneg : size < 0
            · rw [if_pos hneg, if_pos hneg]
            · rw [if_neg hneg, if_neg hneg]
              by_cases hlen : (rest.drop (idx + 1)).length ≤ size.toNat
              · rw [if_pos hlen, if_pos hlen]
              · rw [if_neg hlen, if_neg hlen]
                have hdl2 : ((rest.drop (idx + 1)).drop (size.toNat + 1)).length =
                    (rest.drop (idx + 1)).length - (size.toNat + 1) :=
                  List.length_drop _ _
                exact ih (by omega) (by omega)

theorem natDec_ne_13 {n : Nat} : natDec n ≠ [13] := by
  intro h
  have : (13 : Nat) ∈ natDec n := h ▸ List.mem_cons_self 13 []
  have := natDec_digits 13 this
  omega

theorem drop_len_succ_append {a b : Bytes} {x : Nat} :
    (a ++ x :: b).drop (a.length + 1) = b := by
  induction a with
  | nil => rfl
  | cons y a ih => simp only [List.cons_append, List.length_cons, List.drop_succ_cons]; exact ih

theorem partsConcat_nil : partsConcat [] = [] := rfl

theorem partsConcat_cons {p : Bytes} {ps : List Bytes} :
    partsConcat (p :: ps) = partBytes p ++ partsConcat ps := by
  simp [partsConcat]

theorem partsConcat_append {ps qs : List Bytes} :
    partsConcat (ps ++ qs) = partsConcat ps ++ partsConcat qs := by
  simp [partsConcat]

theorem partBytes_shape (p tail : Bytes) :
    partBytes p ++ tail = natDec p.length ++ 10 :: (p ++ 10 :: tail) := by
  simp [partBytes]

theorem parseFrom_part {p tail : Bytes} {c : Nat} {resp : List Bytes}
    (hp : p.length ≤ maxInt64) :
    parseFrom (partBytes p ++ tail) c resp =
      parseFrom tail (c + (partBytes p).length) (resp ++ [p]) := by
  have hshape := partBytes_shape p tail
  have hidx : idxOfNL (partBytes p ++ tail) = some (natDec p.length).length := by
    rw [hshape]; exact idxOfNL_append natDec_no_nl
  have htake : (partBytes p ++ tail).take (natDec p.length).length =
      natDec p.length := by
    rw [hshape]; exact List.take_left _ _
  have hdrop : (partBytes p ++ tail).drop ((natDec p.length).length + 1) =
      p ++ 10 :: tail := by
    rw [hshape]; exact drop_len_succ_append
  have key : parseLoop ((partBytes p ++ tail).length + 1) (partBytes p ++ tail)
      c resp =
      parseLoop ((partBytes p ++ tail).length) tail
        (c + (partBytes p).length) (resp ++ [p]) := by
    simp only [parseLoop, hidx]
    rw [htake, hdrop]
    rw [if_neg (by push_neg; exact ⟨natDec_ne_nil, natDec_ne_13⟩)]
    rw [goAtoi_quoteStrip_natDec hp]
    dsimp only
    rw [if_neg (by omega)]
    have htoNat : ((p.length : Int)).toNat = p.length := rfl
    rw [htoNat]
    rw [if_neg (by simp)]
    rw [List.take_left, drop_len_succ_append]
    have harith : c + (natDec p.length).length + 1 + p.length + 1 =
        c + (partBytes p).length := by
      simp [partBytes]; omega
    rw [harith]
  rw [parseFrom, key]
  apply parseLoop_fuel
  · simp [partBytes]; omega
  · omega

theorem parseFrom_parts {ps : List Bytes} :
    ∀ {tail : Bytes} {c : Nat} {resp : List Bytes},
      (∀ p ∈ ps, p.length ≤ maxInt64) →
      parseFrom (partsConcat ps ++ tail) c resp =
        parseFrom tail (c + (partsConcat ps).length) (resp ++ ps) := by
  induction ps with
  | nil => intro tail c resp _; simp [partsConcat_nil]
  | cons p ps ih =>
    intro tail c resp h
    have hp : p.length ≤ maxInt64 := h p (List.mem_cons_self p ps)
    have hr : ∀ q ∈ ps, q.length ≤ maxInt64 := fun q hq =>
      h q (List.mem_cons_of_mem p hq)
    rw [partsConcat_cons, List.append_assoc, parseFrom_part hp, ih hr]
    congr 1
    · simp [partsConcat_cons]; omega
    · simp

theorem parseFrom_nl {rest : Bytes} {c : Nat} {resp : List Bytes}
    (h : resp ≠ []) : parseFrom (10 :: rest) c resp = .frame resp (c + 1) := by
  have hidx : idxOfNL (10 :: rest) = some 0 := rfl
  simp only [parseFrom, parseLoop, hidx]
  rw [List.take_zero, if_pos (Or.inl rfl), if_neg h]

theorem parseFrom_cr_nl {rest : Bytes} {c : Nat} {resp : List Bytes}
    (h : resp ≠ []) :
    parseFrom (13 :: 10 :: rest) c resp = .frame resp (c + 2) := by
  have hidx : idxOfNL (13 :: 10 :: rest) = some 1 := rfl
  simp only [parseFrom, parseLoop, hidx]
  rw [show List.take 1 (13 :: 10 :: rest) = [13] from rfl,
    if_pos (Or.inr rfl), if_neg h]

theorem parseFrom_noNL {tail : Bytes} {c : Nat} {resp : List Bytes}
    (h : 10 ∉ tail) : parseFrom tail c resp = .needMore := by
  simp only [parseFrom, parseLoop, idxOfNL_eq_none h]

theorem parseFrom_short {n : Nat} {body : Bytes} {c : Nat}
    {resp : List Bytes} (h : body.length ≤ n) (hn : n ≤ maxInt64) :
    parseFrom (natDec n ++ 10 :: body) c resp = .needMore := by
  have hidx : idxOfNL (natDec n ++ 10 :: body) = some (natDec n).length :=
    idxOfNL_append natDec_no_nl
  have htake : (natDec n ++ 10 :: body).take (natDec n).length = natDec n :=
    List.take_left _ _
  have hdrop : (natDec n ++ 10 :: body).drop ((natDec n).length + 1) = body :=
    drop_len_succ_append
  simp only [parseFrom, parseLoop, hidx]
  rw [htake, hdrop]
  rw [if_neg (by push_neg; exact ⟨natDec_ne_nil, natDec_ne_13⟩)]
  rw [goAtoi_quoteStrip_natDec hn]
  dsimp only
  rw [if_neg (by omega)]
  have htoNat : ((n : Int)).toNat = n := rfl
  rw [htoNat, if_pos h]

theorem parseFrom_badline {line rest : Bytes} {c : Nat} {resp : List Bytes}
    (h10 : 10 ∉ line) (hne : line ≠ []) (h13 : line ≠ [13])
    (hbad : badLenLine line) :
    parseFrom (line ++ 10 :: rest) c resp = .error := by
  have hidx : idxOfNL (line ++ 10 :: rest) = some line.length :=
    idxOfNL_append h10
  have htake : (line ++ 10 :: rest).take line.length = line :=
    List.take_left _ _
  simp only [parseFrom, parseLoop, hidx]
  rw [htake]
  rw [if_neg (by push_neg; exact ⟨hne, h13⟩)]
  unfold badLenLine at hbad
  cases hatoi : goAtoi (quoteStrip line) with
  | none => rfl
  | some k =>
    rw [hatoi] at hbad
    dsimp only
    rw [if_pos hbad]

theorem parse_eq_parseFrom {buf : Bytes} : parse buf = parseFrom buf 0 [] := rfl

theorem parse_parts_frame {ps : List Bytes} (h : ps ≠ [])
    (hb : ∀ p ∈ ps, p.length ≤ maxInt64) :
    parse (partsConcat ps ++ [10]) =
      .frame ps ((partsConcat ps).length + 1) := by
  rw [parse_eq_parseFrom]
  rw [show partsConcat ps ++ [10] = partsConcat ps ++ 10 :: [] from rfl]
  rw [parseFrom_parts hb]
  simpa using parseFrom_nl (by simpa using h)


/-! ### tranfLoop fuel irrelevance and stepping -/

theorem tranfLoop_fuel {f1 : Nat} :
    ∀ {f2 : Nat} {zipData : Bytes} {resp : List Bytes},
      zipData.length < f1 → zipData.length < f2 →
      tranfLoop f1 zipData resp = tranfLoop f2 zipData resp := by
  induction f1 with
  | zero => intro f2 zipData resp h1 _; omega
  | succ f1 ih =>
    intro f2 zipData resp h1 h2
    cases f2 with
    | zero => omega
    | succ f2 =>
      simp only [tranfLoop]
      cases hidx : idxOfNL zipData with
      | none => rfl
      | some idx =>
        dsimp only
        have hlt : idx < zipData.length := idxOfNL_lt hidx
        have hdl : (zipData.drop (idx + 1)).length =
            zipData.length - (idx + 1) := List.length_drop _ _
        cases hatoi : goAtoi (zipData.take idx) with
        | none =>
          show tranfLoop f1 (zipData.drop (idx + 1)) resp =
            tranfLoop f2 (zipData.drop (idx + 1)) resp
          exact ih (by omega) (by omega)
        | some size =>
          dsimp only
          by_cases hneg : size < 0
          · rw [if_pos hneg, if_pos hneg]
            exact ih (by omega) (by omega)
          · rw [if_neg hneg, if_neg hneg]
            by_cases hover : zipData.length < idx + 1 + size.toNat
            · rw [if_pos hover, if_pos hover]
            · rw [if_neg hover, if_neg hover]
              have hdl2 : (zipData.drop (idx + 1 + size.toNat)).length =
                  zipData.length - (idx + 1 + size.toNat) :=
                List.length_drop _ _
              exact ih (by omega) (by omega)

theorem goAtoi_nil : goAtoi [] = none := rfl

theorem tranfFrom_skip_nl {tail : Bytes} {resp : List Bytes} :
    tranfFrom (10 :: tail) resp = tranfFrom tail resp := by
  have hidx : idxOfNL (10 :: tail) = some 0 := rfl
  simp only [tranfFrom, tranfLoop, hidx]
  rw [List.take_zero]
  rfl

theorem tranfFrom_part {p tail : Bytes} {resp : List Bytes}
    (hp : p.length ≤ maxInt64) :
    tranfFrom (partBytes p ++ tail) resp = tranfFrom tail (resp ++ [p]) := by
  have hshape := partBytes_shape p tail
  have hidx : idxOfNL (partBytes p ++ tail) = some (natDec p.length).length := by
    rw [hshape]; exact idxOfNL_append natDec_no_nl
  have htake : (partBytes p ++ tail).take (natDec p.length).length =
      natDec p.length := by
    rw [hshape]; exact List.take_left _ _
  have hdrop : (partBytes p ++ tail).drop ((natDec p.length).length + 1) =
      p ++ 10 :: tail := by
    rw [hshape]; exact drop_len_succ_append
  have hlen : (partBytes p ++ tail).length =
      (natDec p.length).length + 1 + p.length + 1 + tail.length := by
    simp [partBytes]; omega
  have hdrop2 : (partBytes p ++ tail).drop
      ((natDec p.length).length + 1 + p.length) = 10 :: tail := by
    rw [← List.drop_drop, hdrop, List.drop_left]
  have key : tranfLoop ((partBytes p ++ tail).length + 1)
      (partBytes p ++ tail) resp =
      tranfLoop ((partBytes p ++ tail).length) (10 :: tail) (resp ++ [p]) := by
    simp only [tranfLoop, hidx]
    rw [htake, goAtoi_natDec hp]
    dsimp only
    rw [if_neg (by omega)]
    have htoNat : ((p.length : Int)).toNat = p.length := rfl
    rw [htoNat]
    rw [if_neg (by omega)]
    rw [hdrop, List.take_left, hdrop2]
  rw [tranfFrom, key]
  have h2 : tranfLoop ((partBytes p ++ tail).length) (10 :: tail)
      (resp ++ [p]) = tranfFrom (10 :: tail) (resp ++ [p]) := by
    apply tranfLoop_fuel
    · simp only [List.length_cons]; omega
    · omega
  rw [h2, tranfFrom_skip_nl]

theorem tranfFrom_nil {resp : List Bytes} : tranfFrom [] resp = .out resp :=
  rfl

theorem tranfFrom_parts {ps : List Bytes} :
    ∀ {resp : List Bytes}, (∀ p ∈ ps, p.length ≤ maxInt64) →
      tranfFrom (partsConcat ps) resp = .out (resp ++ ps) := by
  induction ps with
  | nil => intro resp _; simp [partsConcat_nil, tranfFrom_nil]
  | cons p ps ih =>
    intro resp h
    have hp : p.length ≤ maxInt64 := h p (List.mem_cons_self p ps)
    have hr : ∀ q ∈ ps, q.length ≤ maxInt64 := fun q hq =>
      h q (List.mem_cons_of_mem p hq)
    rw [partsConcat_cons, tranfFrom_part hp, ih hr]
    simp

/-! ### base64 round trip -/

theorem b64Val_b64Char : ∀ s, s < 64 → b64Val (b64Char s) = some s := by
  decide

theorem b64Char_ne_61 : ∀ s, s < 64 → b64Char s ≠ 61 := by decide

theorem b64_roundtrip {x : Bytes} (h : ∀ c ∈ x, c < 256) :
    b64Decode (b64Encode x) = some x := by
  induction x using b64Encode.induct with
  | case4 => rfl
  | case3 b0 =>
    have h0 : b0 < 256 := h b0 (List.mem_cons_self _ _)
    simp only [b64Encode, b64Decode]
    rw [b64Val_b64Char (b0 / 4) (by omega),
      b64Val_b64Char ((b0 % 4) * 16) (by omega)]
    simp only [Option.bind_eq_bind, Option.some_bind]
    simp only [Option.some.injEq, List.cons.injEq, and_true, and_self,
      if_true, reduceIte]
    simp
    omega
  | case2 b0 b1 =>
    have h0 : b0 < 256 := h b0 (List.mem_cons_self _ _)
    have h1 : b1 < 256 := h b1 (by simp)
    simp only [b64Encode, b64Decode]
    rw [b64Val_b64Char (b0 / 4) (by omega),
      b64Val_b64Char ((b0 % 4) * 16 + b1 / 16) (by omega)]
    simp only [Option.bind_eq_bind, Option.some_bind]
    rw [if_neg (b64Char_ne_61 ((b1 % 16) * 4) (by omega))]
    rw [b64Val_b64Char ((b1 % 16) * 4) (by omega)]
    simp only [Option.bind_eq_bind, Option.some_bind]
    simp
    constructor <;> omega
  | case1 b0 b1 b2 rest ih =>
    have h0 : b0 < 256 := h b0 (List.mem_cons_self _ _)
    have h1 : b1 < 256 := h b1 (by simp)
    have h2 : b2 < 256 := h b2 (by simp)
    have hrest : ∀ c ∈ rest, c < 256 := fun c hc => h c (by simp [hc])
    simp only [b64Encode, b64Decode]
    rw [b64Val_b64Char (b0 / 4) (by omega),
      b64Val_b64Char ((b0 % 4) * 16 + b1 / 16) (by omega)]
    simp only [Option.bind_eq_bind, Option.some_bind]
    rw [if_neg (b64Char_ne_61 ((b1 % 16) * 4 + b2 / 64) (by omega))]
    rw [b64Val_b64Char ((b1 % 16) * 4 + b2 / 64) (by omega)]
    simp only [Option.bind_eq_bind, Option.some_bind]
    rw [if_neg (b64Char_ne_61 (b2 % 64) (by omega))]
    rw [b64Val_b64Char (b2 % 64) (by omega)]
    simp only [Option.bind_eq_bind, Option.some_bind]
    rw [ih hrest]
    simp only [Option.bind_eq_bind, Option.some_bind]
    simp
    refine ⟨by omega, by omega, by omega⟩


/-! ### Encoder structure lemmas -/

theorem encodeArg_eq_parts (a : Arg) :
    encodeArg a = partsConcat (argParts a) := by
  cases a <;> simp [encodeArg, argParts, partsConcat]

theorem allParts_cons {a : Arg} {args : List Arg} :
    allParts (a :: args) = argParts a ++ allParts args := by
  simp [allParts]

theorem encodeNoZip_eq {args : List Arg} :
    encodeNoZip args = partsConcat (allParts args) ++ [10] := by
  unfold encodeNoZip
  congr 1
  induction args with
  | nil => rfl
  | cons a args ih =>
    simp only [List.map_cons, List.flatten_cons, allParts_cons,
      partsConcat_append, ih, encodeArg_eq_parts]

theorem zipArgInner_eq {a : Arg} (h : argIsIface a = false) :
    zipArgInner a = encodeArg a := by
  cases a <;> first | rfl | simp [argIsIface] at h

theorem zipArgOuter_eq {a : Arg} (h : argIsIface a = false) :
    zipArgOuter a = [] := by
  cases a <;> first | rfl | simp [argIsIface] at h

theorem zipInner_eq {args : List Arg} (h : NoIface args) :
    zipInner args = partsConcat (allParts args) := by
  induction args with
  | nil => rfl
  | cons a args ih =>
    have ha : argIsIface a = false := h a (List.mem_cons_self a args)
    have hrest : NoIface args := fun b hb => h b (List.mem_cons_of_mem a hb)
    simp only [zipInner, List.map_cons, List.flatten_cons, allParts_cons,
      partsConcat_append]
    rw [zipArgInner_eq ha, encodeArg_eq_parts]
    congr 1
    simpa [zipInner] using ih hrest

theorem zipOuterExtra_eq_nil {args : List Arg} (h : NoIface args) :
    zipOuterExtra args = [] := by
  induction args with
  | nil => rfl
  | cons a args ih =>
    have ha : argIsIface a = false := h a (List.mem_cons_self a args)
    have hrest : NoIface args := fun b hb => h b (List.mem_cons_of_mem a hb)
    simp only [zipOuterExtra, List.map_cons, List.flatten_cons]
    rw [zipArgOuter_eq ha]
    simpa [zipOuterExtra] using ih hrest

theorem encodeZip_eq {gz : Bytes → Bytes} {args : List Arg}
    (h : NoIface args) :
    encodeZip gz args =
      partsConcat [zipBytes,
        b64Encode (gz (partsConcat (allParts args)))] ++ [10] := by
  unfold encodeZip
  rw [zipOuterExtra_eq_nil h, zipInner_eq h]
  simp only [partsConcat, List.map_cons, List.map_nil, List.flatten_cons,
    List.flatten_nil, List.append_nil, List.append_assoc]
  rfl

/-! ### Receive pipeline lemmas -/

theorem parse_encodeNoZip {args : List Arg} (h : allParts args ≠ [])
    (hb : ∀ p ∈ allParts args, p.length ≤ maxInt64) :
    parse (encodeNoZip args) =
      .frame (allParts args) ((partsConcat (allParts args)).length + 1) := by
  rw [encodeNoZip_eq]
  exact parse_parts_frame h hb

theorem recvStep_zip {gz : Bytes → Bytes} {ungz : Bytes → Option Bytes}
    {args : List Arg}
    (hrt : ungz (gz (partsConcat (allParts args))) =
      some (partsConcat (allParts args)))
    (hb : ∀ c ∈ gz (partsConcat (allParts args)), c < 256)
    (hni : NoIface args)
    (hb2 : (b64Encode (gz (partsConcat (allParts args)))).length ≤ maxInt64)
    (hparts : ∀ p ∈ allParts args, p.length ≤ maxInt64) :
    recvStep ungz (encodeZip gz args) = .ret (some (allParts args)) false := by
  rw [encodeZip_eq hni]
  have hparse :=
    @parse_parts_frame [zipBytes, b64Encode (gz (partsConcat (allParts args)))]
      (by simp)
      (by
        intro p hp
        simp only [List.mem_cons, List.not_mem_nil, or_false] at hp
        rcases hp with rfl | rfl
        · decide
        · exact hb2)
  simp only [recvStep, hparse, List.head?_cons, List.get?]
  rw [b64_roundtrip hb]
  show (match tranfUnZip ungz (gz (partsConcat (allParts args))) with
    | TranfRes.panics => RecvOut.panics
    | TranfRes.out l => RecvOut.ret (some l) false) =
    RecvOut.ret (some (allParts args)) false
  unfold tranfUnZip
  rw [hrt]
  have ht := @tranfFrom_parts (allParts args) [] hparts
  simp only [tranfFrom, List.nil_append] at ht
  show (match tranfLoop ((partsConcat (allParts args)).length + 1)
      (partsConcat (allParts args)) [] with
    | TranfRes.panics => RecvOut.panics
    | TranfRes.out l => RecvOut.ret (some l) false) =
    RecvOut.ret (some (allParts args)) false
  rw [ht]

/-! ### buildMap lemmas -/

theorem buildMap_even : ∀ {t : List Bytes} {acc : List (Bytes × Bytes)},
    t.length % 2 = 0 →
    buildMap t acc = some (List.foldl (fun m kv => mapSet m kv.1 kv.2) acc
      (pairChunks t)) := by
  intro t
  induction t using pairChunks.induct with
  | case1 k v rest ih =>
    intro acc h
    simp only [List.length_cons] at h
    simp only [buildMap, pairChunks, List.foldl_cons]
    exact ih (by omega)
  | case2 t h1 =>
    intro acc h
    match t, h1 with
    | [], _ => simp [buildMap, pairChunks]
    | [x], h1 => simp at h
    | k :: v :: rest, h1 => exact absurd rfl (fun he => h1 k v rest he)

theorem buildMap_odd : ∀ {t : List Bytes} {acc : List (Bytes × Bytes)},
    t.length % 2 = 1 → buildMap t acc = none := by
  intro t
  induction t using pairChunks.induct with
  | case1 k v rest ih =>
    intro acc h
    simp only [List.length_cons] at h
    simp only [buildMap]
    exact ih (by omega)
  | case2 t h1 =>
    intro acc h
    match t, h1 with
    | [], _ => simp at h
    | [x], h1 => rfl
    | k :: v :: rest, h1 => exact absurd rfl (fun he => h1 k v rest he)


/-! ### Batch chunking lemmas -/

theorem goSlice_eq {α : Type} (l : List α) (s e : Nat) :
    goSlice l s e = (l.drop s).take (e - s) := by
  simp [goSlice, List.drop_take]

theorem splitChunks_small {α : Type} {l : List α} (h : l.length < 2000) :
    splitChunks l = [l] := by
  unfold splitChunks
  rw [if_neg (by omega)]

theorem chunksRef_of_le {α : Type} {l : List α} (h : l.length ≤ 2000) :
    chunksRef l = [l] := by
  rw [chunksRef]
  exact dif_pos h

theorem chunksRef_of_gt {α : Type} {l : List α} (h : 2000 < l.length) :
    chunksRef l = l.take 2000 :: chunksRef (l.drop 2000) := by
  rw [chunksRef]
  exact dif_neg (by omega)

theorem splitChunks_exact {α : Type} {l : List α} (h : l.length = 2000) :
    splitChunks l = [l] := by
  unfold splitChunks
  rw [if_pos (by omega), h]
  rw [show (2000 / 2000 + 1 : Nat) = 2 by norm_num,
    show List.range 2 = [0, 1] by decide]
  simp only [List.filterMap_cons, List.filterMap_nil]
  norm_num
  rw [goSlice_eq]
  simp only [List.drop_zero, Nat.sub_zero]
  rw [List.take_of_length_le (by omega)]

theorem splitChunksAux_eq {α : Type} (m : List α) (h : 1 ≤ m.length) :
    (List.range (m.length / 2000 + 1)).filterMap (fun i =>
      if min (i * 2000) m.length ≠ min ((i + 1) * 2000) m.length then
        some (goSlice m (min (i * 2000) m.length)
          (min ((i + 1) * 2000) m.length))
      else none) = splitChunks m := by
  by_cases hge : m.length ≥ 2000
  · unfold splitChunks
    rw [if_pos hge]
  · have hlt : m.length < 2000 := by omega
    rw [splitChunks_small hlt]
    have hdiv : m.length / 2000 = 0 := by omega
    rw [hdiv]
    rw [show (0 + 1 : Nat) = 1 from rfl, List.range_succ, List.range_zero]
    simp only [List.nil_append, List.filterMap_cons, List.filterMap_nil]
    have hmin0 : min (0 * 2000) m.length = 0 := by omega
    have hmin1 : min ((0 + 1) * 2000) m.length = m.length := by omega
    rw [hmin0, hmin1, if_pos (by omega)]
    rw [goSlice_eq]
    simp only [List.drop_zero, Nat.sub_zero, List.take_length]

theorem splitChunks_step {α : Type} {l : List α} (h : 2000 < l.length) :
    splitChunks l = l.take 2000 :: splitChunks (l.drop 2000) := by
  have hlen : (l.drop 2000).length = l.length - 2000 := List.length_drop _ _
  conv_lhs => rw [splitChunks]
  rw [if_pos (by omega)]
  rw [List.range_succ_eq_map, List.filterMap_cons]
  have hF0 : (if min (0 * 2000) l.length ≠ min ((0 + 1) * 2000) l.length then
      some (goSlice l (min (0 * 2000) l.length)
        (min ((0 + 1) * 2000) l.length))
    else none) = some (l.take 2000) := by
    have hmin0 : min (0 * 2000) l.length = 0 := by omega
    have hmin1 : min ((0 + 1) * 2000) l.length = 2000 := by omega
    rw [hmin0, hmin1, if_pos (by omega), goSlice_eq]
    simp
  rw [hF0]
  dsimp only
  congr 1
  rw [List.filterMap_map]
  have hpt : ∀ i ∈ List.range (l.length / 2000),
      ((fun i =>
        if min (i * 2000) l.length ≠ min ((i + 1) * 2000) l.length then
          some (goSlice l (min (i * 2000) l.length)
            (min ((i + 1) * 2000) l.length))
        else none) ∘ Nat.succ) i =
      (fun i =>
        if min (i * 2000) (l.drop 2000).length ≠
            min ((i + 1) * 2000) (l.drop 2000).length then
          some (goSlice (l.drop 2000) (min (i * 2000) (l.drop 2000).length)
            (min ((i + 1) * 2000) (l.drop 2000).length))
        else none) i := by
    intro i _
    simp only [Function.comp_apply, Nat.succ_eq_add_one]
    have hs : min ((i + 1) * 2000) l.length =
        min (i * 2000) (l.drop 2000).length + 2000 := by omega
    have he : min ((i + 1 + 1) * 2000) l.length =
        min ((i + 1) * 2000) (l.drop 2000).length + 2000 := by omega
    rw [hs, he]
    by_cases hne : min (i * 2000) (l.drop 2000).length ≠
        min ((i + 1) * 2000) (l.drop 2000).length
    · rw [if_pos (by omega), if_pos hne]
      have hsl : goSlice l (min (i * 2000) (l.drop 2000).length + 2000)
          (min ((i + 1) * 2000) (l.drop 2000).length + 2000) =
          goSlice (l.drop 2000) (min (i * 2000) (l.drop 2000).length)
            (min ((i + 1) * 2000) (l.drop 2000).length) := by
        rw [goSlice_eq, goSlice_eq, List.drop_drop]
        rw [show 2000 + min (i * 2000) (l.drop 2000).length =
          min (i * 2000) (l.drop 2000).length + 2000 from Nat.add_comm _ _]
        rw [show min ((i + 1) * 2000) (l.drop 2000).length + 2000 -
            (min (i * 2000) (l.drop 2000).length + 2000) =
            min ((i + 1) * 2000) (l.drop 2000).length -
              min (i * 2000) (l.drop 2000).length by omega]
      rw [hsl]
    · rw [if_neg (by omega), if_neg hne]
  rw [List.filterMap_congr hpt]
  have hrange : l.length / 2000 = (l.drop 2000).length / 2000 + 1 := by
    omega
  rw [hrange]
  exact splitChunksAux_eq (l.drop 2000) (by omega)

theorem splitChunks_eq_chunksRef {α : Type} (l : List α) :
    splitChunks l = chunksRef l := by
  induction l using chunksRef.induct with
  | case1 l h =>
    rw [chunksRef_of_le h]
    rcases Nat.lt_or_ge l.length 2000 with h2 | h2
    · exact splitChunks_small h2
    · exact splitChunks_exact (by omega)
  | case2 l h ih =>
    rw [splitChunks_step (by omega), ih,
      chunksRef_of_gt (show 2000 < l.length by omega)]

theorem chunksRef_ne_nil {α : Type} (l : List α) : chunksRef l ≠ [] := by
  induction l using chunksRef.induct with
  | case1 l h => rw [chunksRef_of_le h]; simp
  | case2 l h ih => rw [chunksRef_of_gt (by omega)]; simp

theorem chunksRef_flatten {α : Type} (l : List α) :
    (chunksRef l).flatten = l := by
  induction l using chunksRef.induct with
  | case1 l h => rw [chunksRef_of_le h]; simp
  | case2 l h ih =>
    rw [chunksRef_of_gt (by omega)]
    simp only [List.flatten_cons, ih, List.take_append_drop]

theorem chunksRef_le_2000 {α : Type} (l : List α) :
    ∀ c ∈ chunksRef l, c.length ≤ 2000 := by
  induction l using chunksRef.induct with
  | case1 l h =>
    rw [chunksRef_of_le h]
    intro c hc
    simp at hc
    subst hc
    exact h
  | case2 l h ih =>
    rw [chunksRef_of_gt (by omega)]
    intro c hc
    rcases List.mem_cons.mp hc with hc | hc
    · subst hc
      simp [List.length_take]
    · exact ih c hc

theorem chunksRef_dropLast_2000 {α : Type} (l : List α) :
    ∀ c ∈ (chunksRef l).dropLast, c.length = 2000 := by
  induction l using chunksRef.induct with
  | case1 l h =>
    rw [chunksRef_of_le h]
    intro c hc
    simp at hc
  | case2 l h ih =>
    rw [chunksRef_of_gt (by omega)]
    rw [List.dropLast_cons_of_ne_nil (chunksRef_ne_nil _)]
    intro c hc
    rcases List.mem_cons.mp hc with hc | hc
    · subst hc
      simp [List.length_take]
      omega
    · exact ih c hc

theorem splitChunks_replicate_5000 :
    (splitChunks (List.replicate 5000 (0 : Nat))).map List.length =
      [2000, 2000, 1000] := by
  rw [splitChunks_eq_chunksRef]
  rw [chunksRef_of_gt (by rw [List.length_replicate]; omega)]
  rw [List.drop_replicate, show (5000 - 2000 : Nat) = 3000 by norm_num]
  rw [chunksRef_of_gt (by rw [List.length_replicate]; omega)]
  rw [List.drop_replicate, show (3000 - 2000 : Nat) = 1000 by norm_num]
  rw [chunksRef_of_le (by rw [List.length_replicate]; omega)]
  rw [List.take_replicate, List.take_replicate]
  simp only [List.map_cons, List.map_nil, List.length_replicate]
  norm_num


/-! ### Support for the carriage-return claims -/

theorem quoteStrip_append {a b : Bytes} :
    quoteStrip (a ++ b) = quoteStrip a ++ quoteStrip b := by
  simp [quoteStrip]

theorem badLen_natDec_cr {n : Nat} : badLenLine (natDec n ++ [13]) := by
  have hq : quoteStrip (natDec n ++ [13]) = natDec n ++ [92, 114] := by
    rw [quoteStrip_append, quoteStrip_natDec]
    rfl
  have hatoi : goAtoi (natDec n ++ [92, 114]) = none := by
    cases hnd : natDec n with
    | nil => exact absurd hnd natDec_ne_nil
    | cons c t =>
      have hc : 48 ≤ c ∧ c ≤ 57 := by
        apply natDec_digits
        rw [hnd]; exact List.mem_cons_self c t
      rw [List.cons_append]
      apply goAtoi_cons_none (by omega) (by omega)
      apply digitsVal_eq_none (x := 92)
      · simp
      · rfl
  unfold badLenLine
  rw [hq, hatoi]
  trivial


/-! ## Claim theorems -/

/-- C1 (counterexample).  The compressed encoding of ["hset","h","k","v"]
does not begin with the three-part envelope bytes 1 nl 3 nl 3 nl zip
claimed by the spec: its first six bytes are the raw envelope 3 nl z i p
nl (independent of the gzip payload), and the outer frame parses to two
length-prefixed parts, not three. -/
theorem c1_counterexample :
    (encodeZip (fun z => z) hsetArgs).take 6 = [51, 10, 122, 105, 112, 10] ∧
    (encodeZip (fun z => z) hsetArgs).take 6 ≠ [49, 10, 51, 10, 51, 10] ∧
    (match parse (encodeZip (fun z => z) hsetArgs) with
      | .frame ps _ => ps.length
      | _ => 0) = 2 := by decide

/-- C1 (amended).  For every gzip function, encoding ["hset","h","k","v"]
with compression on yields the raw envelope bytes 3 nl zip nl, then one
length-prefixed part holding base64(gzip(inner)), then the frame
terminator, where the inner pre-gzip bytes are
4 nl hset nl 1 nl h nl 1 nl k nl 1 nl v nl with no trailing blank line;
whenever the base64 payload fits in an int64-length buffer (every Go
byte slice does), the outer frame parses to exactly the two parts "zip"
and the base64 payload. -/
theorem c1_compressed_envelope (gz : Bytes → Bytes) :
    encodeZip gz hsetArgs =
      [51, 10, 122, 105, 112, 10] ++
        partBytes (b64Encode (gz hsetInner)) ++ [10] ∧
    ((b64Encode (gz hsetInner)).length ≤ maxInt64 →
      parse (encodeZip gz hsetArgs) =
        .frame [zipBytes, b64Encode (gz hsetInner)]
          ((partsConcat [zipBytes, b64Encode (gz hsetInner)]).length + 1)) := by
  constructor
  · rfl
  · intro hlen
    have h := @encodeZip_eq gz hsetArgs (by decide)
    rw [show partsConcat (allParts hsetArgs) = hsetInner from rfl] at h
    rw [h]
    exact @parse_parts_frame [zipBytes, b64Encode (gz hsetInner)] (by simp)
      (by
        intro p hp
        simp only [List.mem_cons, List.not_mem_nil, or_false] at hp
        rcases hp with rfl | rfl
        · decide
        · exact hlen)

/-- C1 (witness).  The parse conjunct at the identity compressor, whose
base64 payload is 32 bytes long, well inside the int64 range. -/
theorem c1_compressed_witness :
    parse (encodeZip (fun z => z) hsetArgs) =
      ParseResult.frame [zipBytes, b64Encode hsetInner]
        ((partsConcat [zipBytes, b64Encode hsetInner]).length + 1) :=
  (c1_compressed_envelope (fun z => z)).2 (by decide)

/-- C2 (confirmed).  Encoding ["set","k","v"] without compression yields
exactly the bytes 3 nl set nl 1 nl k nl 1 nl v nl nl, and not the
reordered byte string named by the spec scenario. -/
theorem c2_plain_encode :
    encodeNoZip setArgs =
      [51, 10, 115, 101, 116, 10, 49, 10, 107, 10, 49, 10, 118, 10, 10] ∧
    encodeNoZip setArgs ≠
      [49, 10, 107, 10, 49, 10, 118, 10, 49, 10, 51, 10, 115, 101, 116, 10,
       10] := by decide

/-- C3 (counterexample).  The compression round trip fails for an
argument vector containing a []interface{} value: the compressed branch
of Client.Send writes such parts into the OUTER buffer, so the receiver
base64-decodes the first raw part ("ab") instead of the gzip payload and
returns an error, while parsing the uncompressed encoding yields the
part "ab". -/
theorem c3_counterexample :
    recvStep some (encodeZip (fun z => z) [Arg.iface [[97, 98]]]) =
      .ret none true ∧
    parse (encodeNoZip [Arg.iface [[97, 98]]]) = .frame [[97, 98]] 6 ∧
    RecvOut.ret (none : Option (List Bytes)) true ≠
      .ret (some [[97, 98]]) false := by decide

/-- C3 (amended).  For every argument vector with no []interface{}
member that expands to at least one part, and for a gzip/gunzip pair
that round-trips on the inner frame and produces byte-valued output,
receiving the compressed encoding (outer parse, base64 decode, gunzip,
secondary parse) yields exactly the parts that parsing the uncompressed
encoding yields. -/
theorem c3_roundtrip (gz : Bytes → Bytes) (ungz : Bytes → Option Bytes)
    (args : List Arg)
    (h1 : ungz (gz (partsConcat (allParts args))) =
      some (partsConcat (allParts args)))
    (h2 : ∀ c ∈ gz (partsConcat (allParts args)), c < 256)
    (h3 : NoIface args) (h4 : allParts args ≠ [])
    (h5 : ∀ p ∈ allParts args, p.length ≤ maxInt64)
    (h6 : (b64Encode (gz (partsConcat (allParts args)))).length ≤ maxInt64) :
    recvStep ungz (encodeZip gz args) = .ret (some (allParts args)) false ∧
    parse (encodeNoZip args) =
      .frame (allParts args) ((partsConcat (allParts args)).length + 1) :=
  ⟨recvStep_zip h1 h2 h3 h6 h5, parse_encodeNoZip h4 h5⟩

/-- C3 (witness).  The round trip instantiated at ["hset","h","k","v"]
with the identity compressor. -/
theorem c3_roundtrip_witness :
    recvStep some (encodeZip (fun z => z) hsetArgs) =
      .ret (some (allParts hsetArgs)) false ∧
    parse (encodeNoZip hsetArgs) =
      .frame (allParts hsetArgs)
        ((partsConcat (allParts hsetArgs)).length + 1) :=
  c3_roundtrip (fun z => z) some hsetArgs rfl (by decide) (by decide)
    (by decide) (by decide) (by decide)

/-- C4 (counterexample).  A buffered frame whose length line is -1 makes
Client.parse return its error sentinel, but Client.recv converts that
into data nil with a NIL error: no ParseError reaches the caller and
CheckError (which alone drops and reconnects the connection) is passed
nil, so no reconnect happens. -/
theorem c4_counterexample :
    recvStep some [45, 49, 10, 111, 107, 10, 10] = .ret none false ∧
    RecvOut.ret (none : Option (List Bytes)) false ≠ .ret none true := by
  decide

/-- C4 (amended).  For every malformed length line (non-numeric after
the Quote transform, or negative), the parser returns its error
sentinel without consuming the buffer, and recv returns (nil, nil) to
the caller: the error is not surfaced and, since CheckError only acts
on a non-nil error, the connection is neither dropped nor reconnected. -/
theorem c4_parse_error_not_surfaced (ungz : Bytes → Option Bytes)
    (line rest : Bytes) (h10 : 10 ∉ line) (hne : line ≠ [])
    (h13 : line ≠ [13]) (hbad : badLenLine line) :
    parse (line ++ 10 :: rest) = .error ∧
    recvStep ungz (line ++ 10 :: rest) = .ret none false ∧
    parseAdvance (line ++ 10 :: rest) = line ++ 10 :: rest := by
  have hp : parse (line ++ 10 :: rest) = .error :=
    parseFrom_badline h10 hne h13 hbad
  refine ⟨hp, ?_, ?_⟩
  · simp only [recvStep, hp]
  · simp only [parseAdvance, hp]

/-- C4 (witness).  The amended claim at the buffer -1 nl ok nl nl. -/
theorem c4_parse_error_witness :
    parse ([45, 49] ++ 10 :: [111, 107, 10, 10]) = .error ∧
    recvStep some ([45, 49] ++ 10 :: [111, 107, 10, 10]) =
      .ret none false ∧
    parseAdvance ([45, 49] ++ 10 :: [111, 107, 10, 10]) =
      [45, 49] ++ 10 :: [111, 107, 10, 10] :=
  c4_parse_error_not_surfaced some [45, 49] [111, 107, 10, 10] (by decide)
    (by decide) (by decide) (by decide)

/-- C5 (counterexample).  The frame 2 CR nl ok nl nl is NOT accepted:
the Quote transform escapes the carriage return into backslash-r, Atoi
fails, and the parser returns its error sentinel instead of the frame
["ok"]. -/
theorem c5_counterexample :
    parse [50, 13, 10, 111, 107, 10, 10] = .error ∧
    ParseResult.error ≠ ParseResult.frame [[111, 107]] 7 := by decide

/-- C5 (amended).  A carriage return immediately before a newline is
tolerated only in an EMPTY line (a CR-terminated blank line still
terminates a frame); a length line with a trailing carriage return is a
parse error, because strconv.Quote renders the CR as a backslash-r
escape and Atoi then fails. -/
theorem c5_cr_only_blank_lines (ps : List Bytes) (n : Nat) (rest : Bytes)
    (hps : ∀ p ∈ ps, p.length ≤ maxInt64) :
    (ps ≠ [] → parse (partsConcat ps ++ [13, 10]) =
      .frame ps ((partsConcat ps).length + 2)) ∧
    parse (partsConcat ps ++ (natDec n ++ 13 :: 10 :: rest)) = .error := by
  constructor
  · intro h
    show parseFrom (partsConcat ps ++ [13, 10]) 0 [] = _
    rw [parseFrom_parts hps, parseFrom_cr_nl (by simpa using h)]
    simp
  · show parseFrom (partsConcat ps ++ (natDec n ++ 13 :: 10 :: rest)) 0 [] = _
    rw [parseFrom_parts hps,
      show natDec n ++ 13 :: 10 :: rest = (natDec n ++ [13]) ++ 10 :: rest by
        simp]
    apply parseFrom_badline
    · intro hm
      rcases List.mem_append.mp hm with hm | hm
      · exact natDec_no_nl hm
      · simp at hm
    · simp
    · intro he
      have hl := congrArg List.length he
      simp at hl
      exact natDec_ne_nil hl
    · exact badLen_natDec_cr


/-- C5 (witness).  The amended claim at the frame 2 nl ok nl CR nl and
the rejected length line 2 CR nl. -/
theorem c5_cr_witness :
    parse (partsConcat [[111, 107]] ++ [13, 10]) =
      .frame [[111, 107]] ((partsConcat [[111, 107]]).length + 2) ∧
    parse (partsConcat [[111, 107]] ++ (natDec 2 ++ 13 :: 10 :: [])) =
      .error :=
  ⟨(c5_cr_only_blank_lines [[111, 107]] 2 [] (by decide)).1 (by decide),
    (c5_cr_only_blank_lines [[111, 107]] 2 [] (by decide)).2⟩

/-- C6 (counterexample).  The buffer xx nl contains no complete frame,
yet the parser returns its ERROR sentinel, not the need-more indication
the claim requires (the buffer is still left unconsumed). -/
theorem c6_counterexample :
    parse [120, 120, 10] = .error ∧
    ParseResult.error ≠ ParseResult.needMore ∧
    parseAdvance [120, 120, 10] = [120, 120, 10] := by decide

/-- C6 (amended).  Partial input never emits a frame and never advances
the receive buffer: a buffer of complete parts followed by a tail with
no newline, or by a length line whose declared size fits in an int64
but is not yet fully buffered, yields need-more with zero bytes
consumed; a length line whose declared size exceeds MaxInt64 makes
strconv.Atoi fail with its range error, so the parser returns its
error sentinel instead, still with zero bytes consumed; and whenever
the parser does not return a frame the buffer is unchanged.  (A
malformed length line likewise yields the error sentinel, see the C4
theorems.) -/
theorem c6_incomplete_input (ps : List Bytes) (tail : Bytes) (n m : Nat)
    (body rest : Bytes) (hps : ∀ p ∈ ps, p.length ≤ maxInt64) :
    (10 ∉ tail → parse (partsConcat ps ++ tail) = .needMore ∧
      parseAdvance (partsConcat ps ++ tail) = partsConcat ps ++ tail) ∧
    (body.length ≤ n → n ≤ maxInt64 →
      parse (partsConcat ps ++ (natDec n ++ 10 :: body)) = .needMore ∧
      parseAdvance (partsConcat ps ++ (natDec n ++ 10 :: body)) =
        partsConcat ps ++ (natDec n ++ 10 :: body)) ∧
    (maxInt64 < m →
      parse (partsConcat ps ++ (natDec m ++ 10 :: rest)) = .error ∧
      parseAdvance (partsConcat ps ++ (natDec m ++ 10 :: rest)) =
        partsConcat ps ++ (natDec m ++ 10 :: rest)) ∧
    (∀ buf : Bytes, (∀ qs k, parse buf ≠ .frame qs k) →
      parseAdvance buf = buf) := by
  refine ⟨?_, ?_, ?_, ?_⟩
  · intro h
    have hp : parse (partsConcat ps ++ tail) = .needMore := by
      show parseFrom (partsConcat ps ++ tail) 0 [] = _
      rw [parseFrom_parts hps]
      exact parseFrom_noNL h
    exact ⟨hp, by simp only [parseAdvance, hp]⟩
  · intro h hn
    have hp : parse (partsConcat ps ++ (natDec n ++ 10 :: body)) =
        .needMore := by
      show parseFrom (partsConcat ps ++ (natDec n ++ 10 :: body)) 0 [] = _
      rw [parseFrom_parts hps]
      exact parseFrom_short h hn
    exact ⟨hp, by simp only [parseAdvance, hp]⟩
  · intro hm
    have hp : parse (partsConcat ps ++ (natDec m ++ 10 :: rest)) =
        .error := by
      show parseFrom (partsConcat ps ++ (natDec m ++ 10 :: rest)) 0 [] = _
      rw [parseFrom_parts hps]
      exact parseFrom_badline natDec_no_nl natDec_ne_nil natDec_ne_13
        (badLen_natDec_big hm)
    exact ⟨hp, by simp only [parseAdvance, hp]⟩
  · intro buf h
    unfold parseAdvance
    cases hp : parse buf with
    | needMore => rfl
    | error => rfl
    | frame qs k => exact absurd hp (h qs k)

/-- C6 (witness).  The amended claim at the bare length line 2, at the
short body 2 nl o, and at the over-range length line 9223372036854775808
(MaxInt64 plus one), where the parser returns the error sentinel. -/
theorem c6_incomplete_witness :
    parse (partsConcat [] ++ [50]) = .needMore ∧
    parse (partsConcat [] ++ (natDec 2 ++ 10 :: [111])) = .needMore ∧
    parse (partsConcat [] ++
      (natDec 9223372036854775808 ++ 10 :: [])) = .error :=
  ⟨((c6_incomplete_input [] [50] 2 9223372036854775808 [111] []
      (by decide)).1 (by decide)).1,
    ((c6_incomplete_input [] [50] 2 9223372036854775808 [111] []
      (by decide)).2.1 (by decide) (by decide)).1,
    ((c6_incomplete_input [] [50] 2 9223372036854775808 [111] []
      (by decide)).2.2.1 (by decide)).1⟩

/-- C7 (counterexample).  An ok response for hgetall whose payload tail
has exactly one part is decoded by the len-2 branch of ProcessCmd and
returned as a plain string, not as the mapping the claim requires. -/
theorem c7_counterexample :
    processResp "hgetall" [okBytes, [120]] = .okStr [120] ∧
    cmdResIsMap (processResp "hgetall" [okBytes, [120]]) = false := by decide

/-- C7 (amended).  For the six map commands, an ok response whose
payload tail has EVEN length decodes to the mapping sending part[2k] to
part[2k+1] (Go map overwrite semantics, empty tail giving the empty
map); a tail of exactly one part is instead returned as that part as a
plain string, because the two-element branch of ProcessCmd shadows the
map branch.  The concrete hgetall example decodes to the mapping
a to 1, b to 2. -/
theorem c7_map_decode (cmd : String) (h : cmd ∈ mapCmds) :
    (∀ tail : List Bytes, tail.length % 2 = 0 →
      processResp cmd (okBytes :: tail) =
        .okMap (mapOfPairs (pairChunks tail))) ∧
    (∀ x : Bytes, processResp cmd [okBytes, x] = .okStr x) ∧
    processResp "hgetall" [okBytes, [97], [49], [98], [50]] =
      .okMap [([97], [49]), ([98], [50])] := by
  have hform : cmd = "hgetall" ∨ cmd = "hscan" ∨ cmd = "hrscan" ∨
      cmd = "multi_hget" ∨ cmd = "scan" ∨ cmd = "rscan" := by
    simpa [mapCmds] using h
  refine ⟨?_, ?_, by decide⟩
  · intro tail he
    unfold processResp
    rw [if_neg (by
      rintro ⟨h2, _⟩
      simp only [List.length_cons] at h2
      omega)]
    rw [if_neg (by
      rintro ⟨h1, hh⟩
      simp only [List.get?] at hh
      exact absurd (Option.some.inj hh) (by decide))]
    rw [if_pos ⟨by simp, rfl⟩, if_pos h]
    rw [show (okBytes :: tail).drop 1 = tail from rfl]
    rw [buildMap_even he]
    rfl
  · intro x
    unfold processResp
    rw [if_pos ⟨rfl, rfl⟩]
    rcases hform with rfl | rfl | rfl | rfl | rfl | rfl <;> rfl

/-- C7 (witness).  The amended claim for hgetall at the tails
[a, 1] and [x]. -/
theorem c7_map_decode_witness :
    processResp "hgetall" (okBytes :: [[97], [49]]) =
      .okMap (mapOfPairs (pairChunks [[97], [49]])) ∧
    processResp "hgetall" [okBytes, [120, 121]] = .okStr [120, 121] :=
  ⟨(c7_map_decode "hgetall" (by decide)).1 [[97], [49]] (by decide),
    (c7_map_decode "hgetall" (by decide)).2.1 [120, 121]⟩

/-- C10 (confirmed).  For the six map commands, an ok response whose
payload tail has odd length of at least three reaches the pairing loop,
whose final iteration reads data[i+1] one past the end of the payload:
the out-of-range branch of the total embedding is reached. -/
theorem c10_odd_tail_panics (cmd : String) (h : cmd ∈ mapCmds)
    (tail : List Bytes) (hodd : tail.length % 2 = 1)
    (hlen : 3 ≤ tail.length) :
    processResp cmd (okBytes :: tail) = .panics := by
  unfold processResp
  rw [if_neg (by
    rintro ⟨h2, _⟩
    simp only [List.length_cons] at h2
    omega)]
  rw [if_neg (by
    rintro ⟨h1, _⟩
    simp only [List.length_cons] at h1
    omega)]
  rw [if_pos ⟨by simp, rfl⟩, if_pos h]
  rw [show (okBytes :: tail).drop 1 = tail from rfl]
  rw [buildMap_odd hodd]

/-- C10 (witness).  The out-of-range read at the hgetall reply with the
three-part tail [a, 1, b]. -/
theorem c10_odd_tail_witness :
    processResp "hgetall" (okBytes :: [[97], [49], [98]]) = .panics :=
  c10_odd_tail_panics "hgetall" (by decide) [[97], [49], [98]] (by decide)
    (by decide)


/-- C8 (confirmed).  The batch executor partitions its input into chunks
of exactly 2000 commands with only the last chunk possibly smaller
(joining back to the input), uses a single chunk for inputs below 2000,
opens exactly one connection per chunk, closes exactly the opened pool
and never the connection of the caller; 5000 commands give the chunk
sizes 2000, 2000, 1000 (hence 3 connections). -/
theorem c8_batch_partition {α : Type} (doFn : α → Option String)
    (batch : List α) :
    ((batchSend doFn batch).chunks).flatten = batch ∧
    (∀ c ∈ ((batchSend doFn batch).chunks).dropLast, c.length = 2000) ∧
    (∀ c ∈ (batchSend doFn batch).chunks, c.length ≤ 2000) ∧
    (batch.length < 2000 → (batchSend doFn batch).chunks = [batch]) ∧
    ((batchSend doFn batch).openedConns).length =
      ((batchSend doFn batch).chunks).length ∧
    (batchSend doFn batch).closedConns = (batchSend doFn batch).openedConns ∧
    (batchSend doFn batch).callerClosed = false ∧
    (splitChunks (List.replicate 5000 (0 : Nat))).map List.length =
      [2000, 2000, 1000] := by
  have hch : (batchSend doFn batch).chunks = splitChunks batch := rfl
  refine ⟨?_, ?_, ?_, ?_, ?_, rfl, rfl, ?_⟩
  · rw [hch, splitChunks_eq_chunksRef]
    exact chunksRef_flatten batch
  · rw [hch, splitChunks_eq_chunksRef]
    exact chunksRef_dropLast_2000 batch
  · rw [hch, splitChunks_eq_chunksRef]
    exact chunksRef_le_2000 batch
  · intro h
    rw [hch]
    exact splitChunks_small h
  · exact List.length_range _
  · exact splitChunks_replicate_5000

/-- C8 (witness).  The single-chunk case at a one-command batch. -/
theorem c8_batch_witness :
    (batchSend (fun _ : Nat => none) [0]).chunks = [[0]] :=
  (c8_batch_partition (fun _ : Nat => none) [0]).2.2.2.1 (by decide)

/-- C9 (counterexample).  A batch whose only command errors still makes
BatchSend return nil: the error is observed (logged) by batchSubSend
but dropped, so the return value is not the first observed error. -/
theorem c9_counterexample :
    (batchSend (fun _ : Nat => some "boom") [0]).ret = none ∧
    (batchSend (fun _ : Nat => some "boom") [0]).logs = [[some "boom"]] ∧
    (none : Option String) ≠ some "boom" := by decide

/-- C9 (amended).  The batch executor always returns success (nil)
regardless of per-command outcomes; command errors are only logged.  A
chunk continues past an error: every command of every chunk is
dispatched exactly once, in order, whatever the dispatch outcomes. -/
theorem c9_errors_dropped {α : Type} (doFn : α → Option String)
    (batch : List α) :
    (batchSend doFn batch).ret = none ∧
    ((batchSend doFn batch).logs).flatten = batch.map doFn := by
  refine ⟨rfl, ?_⟩
  have hl : (batchSend doFn batch).logs =
      (splitChunks batch).map (fun chunk => chunk.map doFn) := rfl
  rw [hl, ← List.map_flatten, splitChunks_eq_chunksRef,
    chunksRef_flatten]

end Gossdb
